import Mathlib

/-!
Verification of `equations.py`, a solution to the "Equations" challenge:
count the positive integral solutions of 1/x + 1/y = 1/N!, modulo 1000007.

The Python 2 source is embedded shallowly below: Python integers become
`Int` (Python 2 `/` on integers is floor division, `Int.fdiv`; `%` on a
positive modulus is `Int.emod`), Python lists become `List`, and the
`while` loop of `GetPrimeExponent` becomes a fuel-indexed recursion whose
fuel is proved sufficient.
-/

/-- `MODULUS_TERM = 1000007`, the modulus from the problem statement. -/
def MODULUS_TERM : Int := 1000007

/-- Python 2 `range(start, stop, step)` for a positive `step`:
the arithmetic progression `start, start+step, ...` of all terms `< stop`. -/
def pyRange (start stop step : Int) : List Int :=
  (List.range ((stop - start + step - 1).fdiv step).toNat).map
    fun k : Nat => start + step * (k : Int)

/-- The inner loop of `GetPrimesUpTo`:
`for multiple in range(i, rangeEnd+1, i): isPrime[multiple] = False`. -/
def markMultiples (rangeEnd i : Int) (isPrime : List Bool) : List Bool :=
  (pyRange i (rangeEnd + 1) i).foldl (fun arr m => arr.set m.toNat false) isPrime

/-- One iteration of the sieve's outer loop, at odd candidate `i`:
`if isPrime[i] == True: primes.append(i); <mark multiples>`.
The state is the pair (isPrime array, primes list). -/
def sieveStep (rangeEnd : Int) (st : List Bool × List Int) (i : Int) :
    List Bool × List Int :=
  if st.1.getD i.toNat false then (markMultiples rangeEnd i st.1, st.2 ++ [i]) else st

/-- `GetPrimesUpTo(rangeEnd)` from the source: a sieve of Eratosthenes that
special-cases 2 and walks the odd numbers `range(3, rangeEnd+1, 2)`. -/
def GetPrimesUpTo (rangeEnd : Int) : List Int :=
  let isPrime := List.replicate (rangeEnd + 1).toNat true
  let primes : List Int := if 2 ≤ rangeEnd then [2] else []
  ((pyRange 3 (rangeEnd + 1) 2).foldl (sieveStep rangeEnd) (isPrime, primes)).2

/-- The `while remainingN > 1: remainingN /= p; exponent += remainingN` loop
of `GetPrimeExponent`, with explicit fuel; `none` means the fuel ran out
before the loop exited. Python 2 `/` on ints is floor division (`Int.fdiv`). -/
def gpeLoop (p : Int) : Nat → Int → Int → Option Int
  | 0, remainingN, exponent => if 1 < remainingN then none else some exponent
  | fuel + 1, remainingN, exponent =>
    if 1 < remainingN then
      gpeLoop p fuel (remainingN.fdiv p) (exponent + remainingN.fdiv p)
    else some exponent

/-- `GetPrimeExponent(N, p)` from the source: the exponent of `p` in the
prime factorization of `N!`. Fuel `N.toNat` is sufficient for every call the
program makes (`p ≥ 2`); see the termination theorem below. -/
def GetPrimeExponent (N p : Int) : Int :=
  (gpeLoop p N.toNat N 0).getD 0

/-- One step of the accumulation loop of `NumDivisors`:
`result *= (2*e + 1); result %= MODULUS_TERM`. -/
def accumStep (result e : Int) : Int :=
  result * (2 * e + 1) % MODULUS_TERM

/-- `NumDivisors(N)` from the source (the spec's `CountSolutions`): the number
of divisors of `(N!)^2` modulo 1000007, i.e. the number of solutions of
`1/x + 1/y = 1/N!`. The `Counter` keyed by the sieved primes is modelled as
the association list in insertion order. -/
def NumDivisors (N : Int) : Int :=
  let primes := GetPrimesUpTo N
  let primeExponents := primes.map fun p => (p, GetPrimeExponent N p)
  (primeExponents.map Prod.snd).foldl accumStep 1

/-- The variant sieve whose inner loop starts marking at `i*i` instead of `i`
(the optimization the spec allows); everything else is as in `sieveStep`. -/
def sieveStepOpt (rangeEnd : Int) (st : List Bool × List Int) (i : Int) :
    List Bool × List Int :=
  if st.1.getD i.toNat false then
    ((pyRange (i * i) (rangeEnd + 1) i).foldl (fun arr m => arr.set m.toNat false) st.1,
      st.2 ++ [i])
  else st

/-- `GetPrimesUpTo` with the inner marking loop started at `i*i`. -/
def GetPrimesUpToOpt (rangeEnd : Int) : List Int :=
  let isPrime := List.replicate (rangeEnd + 1).toNat true
  let primes : List Int := if 2 ≤ rangeEnd then [2] else []
  ((pyRange 3 (rangeEnd + 1) 2).foldl (sieveStepOpt rangeEnd) (isPrime, primes)).2

/-- A bounds-checked read of the Python list access `isPrime[idx]`: `none`
exactly when a nonnegative index would raise `IndexError`. -/
def getChecked (arr : List Bool) (idx : Int) : Option Bool :=
  if 0 ≤ idx ∧ idx < arr.length then some (arr.getD idx.toNat false) else none

/-- A bounds-checked write `isPrime[idx] = value`: `none` exactly when a
nonnegative index would raise `IndexError`. -/
def setChecked (arr : List Bool) (idx : Int) (value : Bool) : Option (List Bool) :=
  if 0 ≤ idx ∧ idx < arr.length then some (arr.set idx.toNat value) else none

/-- `markMultiples` with every array write bounds-checked. -/
def markMultiplesChecked (rangeEnd i : Int) (isPrime : List Bool) :
    Option (List Bool) :=
  (pyRange i (rangeEnd + 1) i).foldlM (fun arr m => setChecked arr m false) isPrime

/-- `sieveStep` with every array access bounds-checked. -/
def sieveStepChecked (rangeEnd : Int) (st : List Bool × List Int) (i : Int) :
    Option (List Bool × List Int) := do
  let b ← getChecked st.1 i
  if b then do
    let arr ← markMultiplesChecked rangeEnd i st.1
    pure (arr, st.2 ++ [i])
  else pure st

/-- `GetPrimesUpTo` with every array access bounds-checked: a `none` result
means the Python program would raise `IndexError` somewhere. -/
def GetPrimesUpToChecked (rangeEnd : Int) : Option (List Int) := do
  let isPrime := List.replicate (rangeEnd + 1).toNat true
  let primes : List Int := if 2 ≤ rangeEnd then [2] else []
  let st ← (pyRange 3 (rangeEnd + 1) 2).foldlM (sieveStepChecked rangeEnd) (isPrime, primes)
  pure st.2

/-- A sieve step parametrized by the index at which the inner marking loop
starts: `sieveStep` is `sieveStepFrom (fun i => i)` and `sieveStepOpt` is
`sieveStepFrom (fun i => i * i)`. -/
def sieveStepFrom (f : Int → Int) (rangeEnd : Int) (st : List Bool × List Int)
    (i : Int) : List Bool × List Int :=
  if st.1.getD i.toNat false then
    ((pyRange (f i) (rangeEnd + 1) i).foldl (fun arr m => arr.set m.toNat false) st.1,
      st.2 ++ [i])
  else st

/-- Trial division by odd candidates `d, d+2, d+4, ...` until `d * d > n`;
a kernel-computable primality test used to evaluate the reference scenarios. -/
def isPrimeAux (n : Nat) : Nat → Nat → Bool
  | 0, _ => true
  | fuel + 1, d =>
    if n < d * d then true
    else if n % d = 0 then false
    else isPrimeAux n fuel (d + 2)

/-- A kernel-computable primality test: handles `n < 2` and even `n`
directly, then trial-divides odd `n` by `3, 5, 7, ...` up to `√n`. -/
def isPrimeB (n : Nat) : Bool :=
  if n < 2 then false
  else if n % 2 = 0 then n = 2
  else isPrimeAux n n 3

/-- The sieve state after the first `t` odd candidates `3, 5, ..., 3 + 2*(t-1)`
have been processed (a proof-side device for reasoning about the fold). -/
def sieveAccum (f : Int → Int) (e : Int) (t : Nat) : List Bool × List Int :=
  ((List.range t).map fun k : Nat => (3 : Int) + 2 * (k : Int)).foldl
    (sieveStepFrom f e)
    (List.replicate (e + 1).toNat true, if 2 ≤ e then [2] else [])

/-- Forces a `Nat` to a literal before the continuation runs (keeps kernel
reduction of the loops below iterative). -/
def natSeq (x : Nat) (f : Nat → Nat) : Nat :=
  match x with
  | 0 => f 0
  | k + 1 => f (k + 1)

/-- Legendre's sum `⌊r/p⌋ + ⌊r/p²⌋ + …` as a bare `Nat.rec` loop (the kernel
reduces `Nat.rec` applications step by step, unlike equation-compiled
recursion, which goes through `brecOn`). -/
def legLoop (p : Nat) : Nat → Nat → Nat → Nat :=
  Nat.rec (motive := fun _ => Nat → Nat → Nat)
    (fun _ acc => acc)
    (fun _ ih r acc =>
      if r ≤ 1 then acc
      else natSeq (r / p) fun r' => natSeq (acc + r') fun a' => ih r' a')

/-- The bitmask whose set bits are exactly the multiples of `i` in `[i, n]`:
`(2^(i·⌊n/i⌋) - 1) / (2^i - 1)` is the binary repunit with ones at
`0, i, 2i, …, i·(⌊n/i⌋ - 1)`, which is then shifted left by `i`. -/
def multiplesMask (i n : Nat) : Nat :=
  ((2 ^ (i * (n / i)) - 1) / (2 ^ i - 1)) <<< i

/-- The sieve's outer loop fused with the accumulation loop, on a bitmask of
composites (bit `j` set means `j` is marked): processes `r` odd candidates
starting at `i`, and multiplies `2·exponent + 1` into `acc` (mod 1000007)
at each unmarked candidate. -/
def maskLoop (n : Nat) : Nat → Nat → Nat → Nat → Nat :=
  Nat.rec (motive := fun _ => Nat → Nat → Nat → Nat)
    (fun _ _ acc => acc)
    (fun _ ih i mask acc =>
      if mask.testBit i then natSeq (i + 2) fun i' => ih i' mask acc
      else
        natSeq (mask ||| multiplesMask i n) fun mask' =>
        natSeq (acc * (2 * legLoop i n n 0 + 1) % 1000007) fun acc' =>
        natSeq (i + 2) fun i' => ih i' mask' acc')

/-- A kernel-computable form of `NumDivisors` on naturals: the prime 2 is
folded into the initial accumulator, then the odd candidates `3, 5, …` are
processed by `maskLoop`. -/
def numDivisorsFast (n : Nat) : Nat :=
  maskLoop n ((n - 1) / 2) 3 0
    (if 2 ≤ n then 1 * (2 * legLoop 2 n n 0 + 1) % 1000007 else 1)

/-! ### Lemmas about the `GetPrimeExponent` loop -/

lemma fdiv_natCast (m k : Nat) : (↑m : Int).fdiv ↑k = ↑(m / k) := by
  rw [Int.fdiv_eq_ediv _ (by positivity)]
  exact_mod_cast (Int.ofNat_ediv m k).symm

lemma gpeLoop_isSome (p : Int) (hp : 2 ≤ p) :
    ∀ (fuel : Nat) (r e : Int), r ≤ fuel → (gpeLoop p fuel r e).isSome = true := by
  intro fuel
  induction fuel with
  | zero =>
    intro r e hr
    simp only [gpeLoop, Nat.cast_zero] at *
    rw [if_neg (by omega)]
    rfl
  | succ f ih =>
    intro r e hr
    simp only [gpeLoop]
    by_cases h : 1 < r
    · rw [if_pos h, Int.fdiv_eq_ediv _ (by omega)]
      apply ih
      have h1 : r / p < r := by
        apply Int.ediv_lt_of_lt_mul (by omega)
        nlinarith
      have h2 : 0 ≤ r / p := Int.ediv_nonneg (by omega) (by omega)
      push_cast at hr ⊢
      omega
    · rw [if_neg h]
      rfl

lemma legendre_sum_zero (p n b : Nat) (hp : 2 ≤ p) (hn : n ≤ 1) :
    ∑ i ∈ Finset.Ico 1 (b + 1), n / p ^ i = 0 := by
  apply Finset.sum_eq_zero
  intro i hi
  apply Nat.div_eq_of_lt
  have hi1 : 1 ≤ i := (Finset.mem_Ico.mp hi).1
  have : p ≤ p ^ i := Nat.le_self_pow (by omega) p
  omega

lemma legendre_sum_step (p n b : Nat) :
    ∑ i ∈ Finset.Ico 1 (b + 2), n / p ^ i =
      n / p + ∑ i ∈ Finset.Ico 1 (b + 1), n / p / p ^ i := by
  rw [Finset.sum_Ico_eq_sum_range, Finset.sum_Ico_eq_sum_range]
  show ∑ k ∈ Finset.range (b + 1), n / p ^ (1 + k) =
    n / p + ∑ k ∈ Finset.range b, n / p / p ^ (1 + k)
  rw [Finset.sum_range_succ']
  rw [Nat.add_comm]
  congr 1
  · norm_num
  · apply Finset.sum_congr rfl
    intro i _
    rw [Nat.div_div_eq_div_mul]
    congr 1
    ring

lemma gpeLoop_natCast_eq (p : Nat) (hp : 2 ≤ p) :
    ∀ (fuel n e : Nat), n ≤ fuel →
      gpeLoop (p : Int) fuel (n : Int) (e : Int) =
        some ((e + ∑ i ∈ Finset.Ico 1 (fuel + 1), n / p ^ i : Nat) : Int) := by
  intro fuel
  induction fuel with
  | zero =>
    intro n e hn
    simp only [gpeLoop]
    rw [if_neg (by exact_mod_cast (by omega : ¬ 1 < n))]
    rw [legendre_sum_zero p n 0 hp (by omega), Nat.add_zero]
  | succ f ih =>
    intro n e hn
    simp only [gpeLoop]
    by_cases h : 1 < n
    · rw [if_pos (by exact_mod_cast h), fdiv_natCast]
      have hcast : (e : Int) + ((n / p : Nat) : Int) = ((e + n / p : Nat) : Int) := by
        push_cast; ring
      have hfuel : n / p ≤ f := by
        have h2 : n / p ≤ n / 2 := Nat.div_le_div_left hp (by omega)
        omega
      rw [hcast, ih (n / p) (e + n / p) hfuel]
      refine congrArg (fun x : Nat => some ((x : Nat) : Int)) ?_
      rw [(rfl : f + 1 + 1 = f + 2), legendre_sum_step p n f]
      exact Nat.add_assoc _ _ _
    · rw [if_neg (by exact_mod_cast h)]
      rw [legendre_sum_zero p n (f + 1) hp (by omega), Nat.add_zero]

lemma getPrimeExponent_natCast (n p : Nat) (hp : 2 ≤ p) :
    GetPrimeExponent (n : Int) (p : Int) =
      ((∑ i ∈ Finset.Ico 1 (n + 1), n / p ^ i : Nat) : Int) := by
  unfold GetPrimeExponent
  have h0 := gpeLoop_natCast_eq p hp n n 0 le_rfl
  simp only [Nat.cast_zero, Nat.zero_add] at h0
  rw [Int.toNat_natCast, h0]
  simp

lemma legendre_eq_factorization (n p : Nat) (hp : p.Prime) :
    (Nat.factorial n).factorization p = ∑ i ∈ Finset.Ico 1 (n + 1), n / p ^ i := by
  rw [Nat.factorization_def _ hp]
  haveI : Fact p.Prime := ⟨hp⟩
  exact padicValNat_factorial (by have := Nat.log_le_self p n; omega)

/-! ### Claim theorems: the exponent loop -/

/-- C9: `GetPrimeExponent(N, p)` terminates for every integer `N ≥ 0` and every
`p ≥ 2`: run with fuel `N.toNat` (one unit per loop iteration), the loop
reaches `remainingN ≤ 1` before the fuel is exhausted, because `remainingN`
strictly decreases on each iteration. -/
theorem getPrimeExponent_terminates (N p : Int) (hN : 0 ≤ N) (hp : 2 ≤ p) :
    (gpeLoop p N.toNat N 0).isSome = true :=
  gpeLoop_isSome p hp N.toNat N 0 (by omega)

theorem getPrimeExponent_terminates_witness :
    (0 : Int) ≤ 10 ∧ (2 : Int) ≤ 3 ∧ (gpeLoop 3 (10 : Int).toNat 10 0).isSome = true :=
  ⟨by decide, by decide, getPrimeExponent_terminates 10 3 (by decide) (by decide)⟩

/-- C2: for every `N ≥ 1` and every prime `p ≤ N`, `GetPrimeExponent(N, p)`
returns exactly the Legendre sum `⌊N/p⌋ + ⌊N/p²⌋ + ⌊N/p³⌋ + …` (every
intermediate division being exact integer floor division), which is the
multiplicity of `p` in the prime factorization of `N!`. -/
theorem getPrimeExponent_legendre (N p : Int) (hN : 1 ≤ N) (hp : p.toNat.Prime)
    (hpN : p ≤ N) :
    GetPrimeExponent N p =
      ((∑ i ∈ Finset.Ico 1 (N.toNat + 1), N.toNat / p.toNat ^ i : Nat) : Int) ∧
    GetPrimeExponent N p = ((Nat.factorial N.toNat).factorization p.toNat : Int) := by
  have hp2 : 2 ≤ p.toNat := hp.two_le
  obtain ⟨n, rfl⟩ := Int.eq_ofNat_of_zero_le (by omega : (0 : Int) ≤ N)
  obtain ⟨q, rfl⟩ := Int.eq_ofNat_of_zero_le (by omega : (0 : Int) ≤ p)
  simp only [Int.toNat_natCast] at hp hp2 ⊢
  refine ⟨getPrimeExponent_natCast n q hp2, ?_⟩
  rw [getPrimeExponent_natCast n q hp2, legendre_eq_factorization n q hp]

theorem getPrimeExponent_legendre_witness :
    (1 : Int) ≤ 10 ∧ (10 : Int).toNat / (2 : Int).toNat ^ 1 +
        ((10 : Int).toNat / (2 : Int).toNat ^ 2 +
          ((10 : Int).toNat / (2 : Int).toNat ^ 3 + 0)) = 8 ∧
      GetPrimeExponent 10 2 =
        ((∑ i ∈ Finset.Ico 1 ((10 : Int).toNat + 1),
          (10 : Int).toNat / (2 : Int).toNat ^ i : Nat) : Int) ∧
      GetPrimeExponent 10 2 =
        ((Nat.factorial (10 : Int).toNat).factorization (2 : Int).toNat : Int) :=
  ⟨by decide, by decide,
    getPrimeExponent_legendre 10 2 (by decide) Nat.prime_two (by decide)⟩

/-! ### Claim theorem: N = 1 edge case -/

/-- C5: `CountSolutions(1) = 1`: there are no primes ≤ 1, the sieve returns the
empty list, the exponent set is empty, and the product over the empty set
leaves the accumulator at its initial value 1. -/
theorem numDivisors_one : NumDivisors 1 = 1 ∧ GetPrimesUpTo 1 = [] :=
  ⟨by decide, by decide⟩

/-! ### The accumulation loop: range invariant and order independence -/

lemma numDivisors_eq_foldl (N : Int) :
    NumDivisors N =
      ((GetPrimesUpTo N).map fun p => GetPrimeExponent N p).foldl accumStep 1 := by
  unfold NumDivisors
  simp only [List.map_map]
  rfl

lemma accumStep_nonneg_lt (a e : Int) : 0 ≤ accumStep a e ∧ accumStep a e < 1000007 := by
  unfold accumStep MODULUS_TERM
  constructor
  · exact Int.emod_nonneg _ (by omega)
  · exact Int.emod_lt_of_pos _ (by omega)

lemma foldl_accumStep_range (l : List Int) :
    ∀ a : Int, 0 ≤ a → a < 1000007 →
      0 ≤ l.foldl accumStep a ∧ l.foldl accumStep a < 1000007 := by
  induction l with
  | nil => intro a h1 h2; exact ⟨h1, h2⟩
  | cons e l ih =>
    intro a _ _
    rw [List.foldl_cons]
    exact ih _ (accumStep_nonneg_lt a e).1 (accumStep_nonneg_lt a e).2

lemma scanl_accumStep_range (l : List Int) :
    ∀ a : Int, 0 ≤ a → a < 1000007 →
      ∀ r ∈ l.scanl accumStep a, 0 ≤ r ∧ r < 1000007 := by
  induction l with
  | nil =>
    intro a h1 h2 r hr
    simp only [List.scanl] at hr
    simp only [List.mem_singleton] at hr
    subst hr; exact ⟨h1, h2⟩
  | cons e l ih =>
    intro a h1 h2 r hr
    simp only [List.scanl, List.mem_cons] at hr
    rcases hr with rfl | hr
    · exact ⟨h1, h2⟩
    · exact ih _ (accumStep_nonneg_lt a e).1 (accumStep_nonneg_lt a e).2 r hr

lemma accumStep_right_comm (z x y : Int) :
    accumStep (accumStep z x) y = accumStep (accumStep z y) x := by
  have key : ∀ a c : Int,
      a % MODULUS_TERM * c % MODULUS_TERM = a * c % MODULUS_TERM := by
    intro a c
    conv_rhs => rw [Int.mul_emod]
    rw [Int.mul_emod (a % MODULUS_TERM) c, Int.emod_emod_of_dvd a dvd_rfl]
  unfold accumStep
  rw [key, key]
  congr 1
  ring

/-- C6: for valid `N`, `CountSolutions(N)` lies in `[0, 1000006]`, and every
intermediate value of the modular accumulator (the scan of the accumulation
loop, starting from 1) also lies in `[0, MODULUS−1]`, because a reduction
modulo 1000007 is applied after every multiplication. -/
theorem numDivisors_range (N : Int) (h1 : 1 ≤ N) (h2 : N ≤ 10 ^ 6) :
    (0 ≤ NumDivisors N ∧ NumDivisors N ≤ 1000006) ∧
      ∀ r ∈ ((GetPrimesUpTo N).map fun p => GetPrimeExponent N p).scanl accumStep 1,
        0 ≤ r ∧ r ≤ 1000006 := by
  constructor
  · rw [numDivisors_eq_foldl]
    have := foldl_accumStep_range ((GetPrimesUpTo N).map fun p => GetPrimeExponent N p)
      1 (by omega) (by omega)
    omega
  · intro r hr
    have := scanl_accumStep_range ((GetPrimesUpTo N).map fun p => GetPrimeExponent N p)
      1 (by omega) (by omega) r hr
    omega

theorem numDivisors_range_witness :
    (1 : Int) ≤ 3 ∧ (3 : Int) ≤ 10 ^ 6 ∧
      ((0 ≤ NumDivisors 3 ∧ NumDivisors 3 ≤ 1000006) ∧
        ∀ r ∈ ((GetPrimesUpTo 3).map fun p => GetPrimeExponent 3 p).scanl accumStep 1,
          0 ≤ r ∧ r ≤ 1000006) :=
  ⟨by decide, by decide, numDivisors_range 3 (by decide) (by decide)⟩

/-- C7: the final accumulator value is independent of the order in which the
prime exponents are folded in: for every permutation `l'` of the exponent
sequence, folding `accumStep` over `l'` from 1 gives `NumDivisors N`. -/
theorem numDivisors_perm_invariant (N : Int) (l' : List Int)
    (h : ((GetPrimesUpTo N).map fun p => GetPrimeExponent N p).Perm l') :
    NumDivisors N = l'.foldl accumStep 1 := by
  rw [numDivisors_eq_foldl]
  exact h.foldl_eq' (fun x _ y _ z => accumStep_right_comm z x y) 1

theorem numDivisors_perm_invariant_witness :
    ((GetPrimesUpTo 4).map fun p => GetPrimeExponent 4 p).Perm [1, 3] ∧
      NumDivisors 4 = List.foldl accumStep 1 [1, 3] :=
  ⟨by decide, numDivisors_perm_invariant 4 [1, 3] (by decide)⟩

/-! ### Bounds of `pyRange` and safety of the sieve's array accesses -/

lemma pyRange_mem_bounds (s t i x : Int) (hi : 0 < i) (hx : x ∈ pyRange s t i) :
    s ≤ x ∧ x < t := by
  unfold pyRange at hx
  obtain ⟨k, hk, rfl⟩ := List.mem_map.mp hx
  rw [List.mem_range, Int.fdiv_eq_ediv _ (by omega)] at hk
  set c : Int := (t - s + i - 1) / i with hc
  have hki : (k : Int) ≤ c - 1 := by omega
  have hd := Int.ediv_add_emod (t - s + i - 1) i
  have hm1 := Int.emod_nonneg (t - s + i - 1) (by omega : i ≠ 0)
  have hm2 := Int.emod_lt_of_pos (t - s + i - 1) hi
  rw [← hc] at hd
  have h2 : i * (k : Int) ≤ i * (c - 1) :=
    mul_le_mul_of_nonneg_left hki (by omega)
  have h3 : i * (c - 1) = i * c - i := by ring
  have h4 : 0 ≤ i * (k : Int) := mul_nonneg (by omega) (Int.natCast_nonneg k)
  constructor
  · linarith
  · linarith

lemma pyRange_empty (s t i : Int) (hi : 0 < i) (ht : t ≤ s) : pyRange s t i = [] := by
  unfold pyRange
  rw [Int.fdiv_eq_ediv _ (by omega)]
  have h1 : (t - s + i - 1) / i ≤ 0 := by
    rcases le_or_lt 0 (t - s + i - 1) with h | h
    · rw [Int.ediv_eq_zero_of_lt h (by omega)]
    · exact le_of_lt (Int.ediv_neg' h hi)
  have h2 : ((t - s + i - 1) / i).toNat = 0 := by omega
  rw [h2]
  rfl

lemma foldl_set_checked (ms : List Int) :
    ∀ bl : List Bool, (∀ m ∈ ms, 0 ≤ m ∧ m < (bl.length : Int)) →
      ms.foldlM (fun arr m => setChecked arr m false) bl =
        some (ms.foldl (fun arr m => arr.set m.toNat false) bl) ∧
      (ms.foldl (fun arr m => arr.set m.toNat false) bl).length = bl.length := by
  induction ms with
  | nil => intro bl _; exact ⟨rfl, rfl⟩
  | cons m ms ih =>
    intro bl hb
    have hm := hb m (List.mem_cons_self m ms)
    have hset : setChecked bl m false = some (bl.set m.toNat false) := by
      unfold setChecked
      rw [if_pos ⟨hm.1, hm.2⟩]
    have hlen : (bl.set m.toNat false).length = bl.length := List.length_set bl m.toNat false
    have hrec := ih (bl.set m.toNat false) (by
      intro x hx
      have := hb x (List.mem_cons_of_mem m hx)
      rw [hlen]
      exact this)
    refine ⟨?_, ?_⟩
    · rw [List.foldlM_cons, hset, List.foldl_cons]
      exact hrec.1
    · rw [List.foldl_cons]
      rw [hrec.2, hlen]

lemma getPrimesUpTo_def (e : Int) :
    GetPrimesUpTo e =
      ((pyRange 3 (e + 1) 2).foldl (sieveStep e)
        (List.replicate (e + 1).toNat true, if 2 ≤ e then [2] else [])).2 := rfl

lemma getPrimesUpToChecked_def (e : Int) :
    GetPrimesUpToChecked e =
      ((pyRange 3 (e + 1) 2).foldlM (sieveStepChecked e)
        (List.replicate (e + 1).toNat true, if 2 ≤ e then [2] else [])).map
          Prod.snd := by
  have hdef : GetPrimesUpToChecked e =
      (pyRange 3 (e + 1) 2).foldlM (sieveStepChecked e)
        (List.replicate (e + 1).toNat true, if 2 ≤ e then [2] else []) >>=
          fun st => pure st.2 := rfl
  rw [hdef]
  rcases (pyRange 3 (e + 1) 2).foldlM (sieveStepChecked e)
      (List.replicate (e + 1).toNat true, if 2 ≤ e then [2] else []) with _ | st
  · rfl
  · rfl

lemma sieveStepChecked_eq (e : Int) (st : List Bool × List Int) (i : Int)
    (hi : 3 ≤ i) (hie : i ≤ e) (hlen : st.1.length = (e + 1).toNat) :
    sieveStepChecked e st i = some (sieveStep e st i) ∧
      (sieveStep e st i).1.length = st.1.length := by
  have hidx : 0 ≤ i ∧ i < (st.1.length : Int) := by rw [hlen]; constructor <;> omega
  have hget : getChecked st.1 i = some (st.1.getD i.toNat false) := by
    unfold getChecked
    rw [if_pos hidx]
  have hmark := foldl_set_checked (pyRange i (e + 1) i) st.1 (by
    intro m hm
    have := pyRange_mem_bounds i (e + 1) i m (by omega) hm
    rw [hlen]
    constructor <;> omega)
  constructor
  · unfold sieveStepChecked sieveStep
    rw [hget]
    cases hb : st.1.getD i.toNat false with
    | false => simp [hb]
    | true =>
      have h1 : markMultiplesChecked e i st.1 = some (markMultiples e i st.1) := hmark.1
      simp [hb, h1]
  · unfold sieveStep
    cases hb : st.1.getD i.toNat false with
    | false => simp [hb]
    | true => simp [hb, markMultiples, hmark.2]

lemma foldlM_sieveChecked_eq (e : Int) (l : List Int) :
    ∀ st : List Bool × List Int, (∀ i ∈ l, 3 ≤ i ∧ i ≤ e) →
      st.1.length = (e + 1).toNat →
      l.foldlM (sieveStepChecked e) st = some (l.foldl (sieveStep e) st) ∧
        (l.foldl (sieveStep e) st).1.length = (e + 1).toNat := by
  induction l with
  | nil => intro st _ h; exact ⟨rfl, h⟩
  | cons i l ih =>
    intro st hl hlen
    have hi := hl i (List.mem_cons_self i l)
    have hstep := sieveStepChecked_eq e st i hi.1 hi.2 hlen
    have hrec := ih (sieveStep e st i) (fun j hj => hl j (List.mem_cons_of_mem i hj))
      (by rw [hstep.2, hlen])
    refine ⟨?_, ?_⟩
    · rw [List.foldlM_cons, hstep.1, List.foldl_cons]
      exact hrec.1
    · rw [List.foldl_cons]
      exact hrec.2

/-! ### Claim theorem: totality and in-bounds accesses of the sieve -/

/-- C10: `GetPrimesUpTo(rangeEnd)` is total for every integer `rangeEnd`,
negatives included: the bounds-checked instrumentation (which returns `none`
as soon as a marking-array index falls outside `[0, rangeEnd]`) succeeds and
returns exactly the uninstrumented result, and for every `rangeEnd < 2` the
result is the empty list. -/
theorem getPrimesUpTo_safe (rangeEnd : Int) :
    GetPrimesUpToChecked rangeEnd = some (GetPrimesUpTo rangeEnd) ∧
      (rangeEnd < 2 → GetPrimesUpTo rangeEnd = []) := by
  constructor
  · rw [getPrimesUpToChecked_def, getPrimesUpTo_def]
    have hb := foldlM_sieveChecked_eq rangeEnd (pyRange 3 (rangeEnd + 1) 2)
      (List.replicate (rangeEnd + 1).toNat true,
        if 2 ≤ rangeEnd then [2] else ([] : List Int))
      (by
        intro i hi
        have := pyRange_mem_bounds 3 (rangeEnd + 1) 2 i (by omega) hi
        omega)
      (by simp)
    rw [hb.1]
    rfl
  · intro h2
    rw [getPrimesUpTo_def,
      pyRange_empty 3 (rangeEnd + 1) 2 (by omega) (by omega),
      List.foldl_nil, if_neg (by omega)]

theorem getPrimesUpTo_safe_witness :
    GetPrimesUpToChecked 1 = some (GetPrimesUpTo 1) ∧ GetPrimesUpTo 1 = [] :=
  ⟨(getPrimesUpTo_safe 1).1, (getPrimesUpTo_safe 1).2 (by decide)⟩

/-! ### The sieve computes exactly the primes: invariant machinery -/

lemma sieveStep_eq_from (e : Int) : sieveStep e = sieveStepFrom (fun i => i) e := rfl

lemma sieveStepOpt_eq_from (e : Int) :
    sieveStepOpt e = sieveStepFrom (fun i => i * i) e := rfl

lemma getD_set_false (bl : List Bool) (i m : Nat) :
    ((bl.set i false).getD m false = false ↔
      bl.getD m false = false ∨ (i = m ∧ m < bl.length)) := by
  rcases eq_or_ne i m with rfl | hne
  · rcases Nat.lt_or_ge i bl.length with h | h
    · rw [List.getD_eq_getElem?_getD, List.getElem?_set_self (by omega), Option.getD_some]
      simp [h]
    · have h1 : (bl.set i false).getD i false = false := by
        rw [List.set_eq_of_length_le h]
        exact List.getD_eq_default _ _ h
      have h2 : bl.getD i false = false := List.getD_eq_default _ _ h
      rw [h1, h2]
      simp
  · rw [List.getD_eq_getElem?_getD, List.getElem?_set_ne hne, ← List.getD_eq_getElem?_getD]
    simp [hne]

lemma foldl_set_length (ms : List Int) :
    ∀ bl : List Bool,
      (ms.foldl (fun arr m => arr.set m.toNat false) bl).length = bl.length := by
  induction ms with
  | nil => intro bl; rfl
  | cons x ms ih => intro bl; rw [List.foldl_cons, ih, List.length_set]

lemma foldl_set_getD (ms : List Int) :
    ∀ (bl : List Bool) (m : Nat),
      ((ms.foldl (fun arr m => arr.set m.toNat false) bl).getD m false = false ↔
        bl.getD m false = false ∨ ((∃ x ∈ ms, x.toNat = m) ∧ m < bl.length)) := by
  induction ms with
  | nil => intro bl m; simp
  | cons x ms ih =>
    intro bl m
    rw [List.foldl_cons, ih, getD_set_false, List.length_set]
    constructor
    · rintro ((h | ⟨hxm, hm⟩) | ⟨⟨y, hy, hym⟩, hm⟩)
      · exact Or.inl h
      · exact Or.inr ⟨⟨x, List.mem_cons_self x ms, hxm⟩, hm⟩
      · exact Or.inr ⟨⟨y, List.mem_cons_of_mem x hy, hym⟩, hm⟩
    · rintro (h | ⟨⟨y, hy, hym⟩, hm⟩)
      · exact Or.inl (Or.inl h)
      · rcases List.mem_cons.mp hy with rfl | hy'
        · exact Or.inl (Or.inr ⟨hym, hm⟩)
        · exact Or.inr ⟨⟨y, hy', hym⟩, hm⟩

lemma pyRange_mem_iff (s t i x : Int) (hi : 0 < i) :
    x ∈ pyRange s t i ↔ s ≤ x ∧ x < t ∧ i ∣ (x - s) := by
  constructor
  · intro hx
    obtain ⟨h1, h2⟩ := pyRange_mem_bounds s t i x hi hx
    refine ⟨h1, h2, ?_⟩
    unfold pyRange at hx
    obtain ⟨k, _, rfl⟩ := List.mem_map.mp hx
    rw [add_sub_cancel_left]
    exact Dvd.intro _ rfl
  · rintro ⟨h1, h2, k, hk⟩
    have hk' : k = (x - s) / i := by rw [hk, Int.mul_ediv_cancel_left _ (by omega)]
    have hk0 : 0 ≤ k := hk' ▸ Int.ediv_nonneg (by omega) (by omega)
    unfold pyRange
    rw [Int.fdiv_eq_ediv _ (by omega)]
    refine List.mem_map.mpr ⟨k.toNat, List.mem_range.mpr ?_, ?_⟩
    · have hkc : k + 1 ≤ (t - s + i - 1) / i := by
        rw [Int.le_ediv_iff_mul_le hi]
        have hr : (k + 1) * i = i * k + i := by ring
        rw [hr]
        linarith
      omega
    · rw [Int.toNat_of_nonneg hk0]
      linarith

lemma pyRange_mem_iff_of_dvd (s t i x : Int) (hi : 0 < i) (hs : i ∣ s) :
    x ∈ pyRange s t i ↔ s ≤ x ∧ x < t ∧ i ∣ x := by
  rw [pyRange_mem_iff s t i x hi]
  simp only [dvd_sub_left hs]

lemma odd_composite_witness (iN : Nat) (h3 : 3 ≤ iN) (hodd : iN % 2 = 1)
    (hcomp : ¬iN.Prime) :
    ∃ q : Nat, q.Prime ∧ q % 2 = 1 ∧ 3 ≤ q ∧ q + 2 ≤ iN ∧ q ∣ iN ∧ q * q ≤ iN := by
  have hq : iN.minFac.Prime := Nat.minFac_prime (by omega)
  have hdvd : iN.minFac ∣ iN := Nat.minFac_dvd iN
  have hsq : iN.minFac * iN.minFac ≤ iN := by
    have := Nat.minFac_sq_le_self (by omega) hcomp
    rwa [pow_two] at this
  have hqodd : iN.minFac % 2 = 1 := by
    rcases hq.eq_two_or_odd' with h2 | hodd'
    · exfalso
      rw [h2] at hdvd
      obtain ⟨c, rfl⟩ := hdvd
      omega
    · exact Nat.odd_iff.mp hodd'
  have hq3 : 3 ≤ iN.minFac := by have := hq.two_le; omega
  have hq2 : iN.minFac + 2 ≤ iN := by
    have h3q : 3 * iN.minFac ≤ iN.minFac * iN.minFac := by nlinarith
    omega
  exact ⟨iN.minFac, hq, hqodd, hq3, hq2, hdvd, hsq⟩

lemma prime_no_small_divisor (iN q : Nat) (hp : iN.Prime) (hq : q.Prime)
    (hdvd : q ∣ iN) (hlt : q + 2 ≤ iN) : False := by
  rcases hp.eq_one_or_self_of_dvd q hdvd with h | h
  · have := hq.two_le; omega
  · omega

lemma sieveAccum_succ (f : Int → Int) (e : Int) (t : Nat) :
    sieveAccum f e (t + 1) =
      sieveStepFrom f e (sieveAccum f e t) (3 + 2 * (t : Int)) := by
  unfold sieveAccum
  rw [List.range_succ, List.map_append, List.foldl_append]
  rfl

lemma sieve_invariant (f : Int → Int)
    (hf : ∀ q : Int, 3 ≤ q → q ∣ f q ∧ q ≤ f q ∧ f q ≤ q * q) (e : Int) :
    ∀ t : Nat, (∀ k : Nat, k < t → 3 + 2 * (k : Int) ≤ e) →
      (sieveAccum f e t).1.length = (e + 1).toNat ∧
      (∀ m : Nat, m < (e + 1).toNat →
        ((sieveAccum f e t).1.getD m false = false ↔
          ∃ q : Nat, q.Prime ∧ q % 2 = 1 ∧ 3 ≤ q ∧ (q : Int) ≤ 2 * (t : Int) + 1 ∧
            q ∣ m ∧ f (q : Int) ≤ (m : Int))) ∧
      (sieveAccum f e t).2 = (if 2 ≤ e then [2] else []) ++
        (((List.range t).map fun k : Nat => 3 + 2 * k).filter
          fun q : Nat => decide q.Prime).map fun q : Nat => (q : Int) := by
  intro t
  induction t with
  | zero =>
    intro _
    refine ⟨List.length_replicate _ _, ?_, by simp [sieveAccum]⟩
    intro m hm
    have hrep : (List.replicate (e + 1).toNat true).getD m false = true := by
      rw [List.getD_eq_getElem?_getD, List.getElem?_replicate, if_pos hm]
      rfl
    unfold sieveAccum
    simp only [List.range_zero, List.map_nil, List.foldl_nil]
    rw [hrep]
    constructor
    · intro h
      exact absurd h (by simp)
    · rintro ⟨q, _, _, hq3, hqt, _, _⟩
      exfalso
      have : (3 : Int) ≤ (q : Int) := by exact_mod_cast hq3
      omega
  | succ t ih =>
    intro hk
    obtain ⟨ih1, ih2, ih3⟩ := ih fun k h => hk k (by omega)
    have hie : 3 + 2 * (t : Int) ≤ e := hk t (by omega)
    set iN : Nat := 3 + 2 * t with hiN
    have hiNe : ((iN : Nat) : Int) = 3 + 2 * (t : Int) := by push_cast [hiN]; ring
    have hiNlt : iN < (e + 1).toNat := by omega
    have hito : (3 + 2 * (t : Int)).toNat = iN := by omega
    have hipos : (0 : Int) < 3 + 2 * (t : Int) := by positivity
    have hchar := ih2 iN hiNlt
    rw [sieveAccum_succ]
    unfold sieveStepFrom
    rw [hito]
    by_cases hbit : (sieveAccum f e t).1.getD iN false = false
    · -- the candidate is composite: it was already marked, nothing changes
      have hnotprime : ¬iN.Prime := by
        intro hp
        obtain ⟨q, hq, _, _, hqt, hqdvd, _⟩ := hchar.mp hbit
        apply prime_no_small_divisor iN q hp hq hqdvd
        have : (q : Int) ≤ 2 * (t : Int) + 1 := hqt
        omega
      rw [hbit, if_neg (by simp)]
      refine ⟨ih1, ?_, ?_⟩
      · intro m hm
        rw [ih2 m hm]
        constructor
        · rintro ⟨q, hq, hqodd, hq3, hqt, hqdvd, hqf⟩
          exact ⟨q, hq, hqodd, hq3, by push_cast; omega, hqdvd, hqf⟩
        · rintro ⟨q, hq, hqodd, hq3, hqt, hqdvd, hqf⟩
          refine ⟨q, hq, hqodd, hq3, ?_, hqdvd, hqf⟩
          -- q ≤ 2t+3, q odd, q ≠ iN = 2t+3 (iN is not prime but q is)
          have hne : q ≠ iN := fun h => hnotprime (h ▸ hq)
          have h1 : (q : Int) ≤ 2 * ((t : Int) + 1) + 1 := by push_cast at hqt ⊢; omega
          have h2 : ((iN : Nat) : Int) = 3 + 2 * (t : Int) := hiNe
          have h3 : (q : Int) ≠ (iN : Int) := by exact_mod_cast hne
          omega
      · rw [ih3, List.range_succ, List.map_append, List.map_singleton,
          List.filter_append]
        have : List.filter (fun q : Nat => decide q.Prime) [3 + 2 * t] = [] := by
          rw [List.filter_cons]
          rw [if_neg (by simpa using hnotprime)]
          rfl
        rw [this, List.append_nil]
    · -- the candidate is unmarked, hence prime: append it and mark its multiples
      have hcond : (sieveAccum f e t).1.getD iN false = true := by
        cases h : (sieveAccum f e t).1.getD iN false
        · exact absurd h hbit
        · rfl
      have hprime : iN.Prime := by
        by_contra hcomp
        obtain ⟨q, hq, hqodd, hq3, hq2, hqdvd, hqsq⟩ :=
          odd_composite_witness iN (by omega) (by omega) hcomp
        apply hbit
        apply hchar.mpr
        refine ⟨q, hq, hqodd, hq3, by push_cast at hq2 ⊢; omega, hqdvd, ?_⟩
        have hfq := hf (q : Int) (by exact_mod_cast hq3)
        have hcast : (q : Int) * (q : Int) ≤ (iN : Int) := by exact_mod_cast hqsq
        omega
      rw [hcond, if_pos rfl]
      have hfi := hf (3 + 2 * (t : Int)) (by omega)
      refine ⟨?_, ?_, ?_⟩
      · rw [foldl_set_length, ih1]
      · intro m hm
        rw [foldl_set_getD, ih2 m hm, ih1]
        have hmem : ∀ x : Int,
            x ∈ pyRange (f (3 + 2 * (t : Int))) (e + 1) (3 + 2 * (t : Int)) ↔
              f (3 + 2 * (t : Int)) ≤ x ∧ x < e + 1 ∧ (3 + 2 * (t : Int)) ∣ x :=
          fun x => pyRange_mem_iff_of_dvd _ _ _ x hipos hfi.1
        constructor
        · rintro (⟨q, hq, hqodd, hq3, hqt, hqdvd, hqf⟩ | ⟨⟨x, hx, hxm⟩, hmlt⟩)
          · exact ⟨q, hq, hqodd, hq3, by push_cast; omega, hqdvd, hqf⟩
          · -- the newly marked cells: multiples of iN from f iN on
            rw [hmem x] at hx
            have hx0 : 0 ≤ x := le_trans (le_trans (by omega) hfi.2.1) hx.1
            have hxm' : x = (m : Int) := by omega
            subst hxm'
            refine ⟨iN, hprime, by omega, by omega, by push_cast; omega, ?_, ?_⟩
            · have := hx.2.2
              rw [← hiNe] at this
              exact_mod_cast this
            · rw [hiNe]
              exact hx.1
        · rintro ⟨q, hq, hqodd, hq3, hqt, hqdvd, hqf⟩
          rcases eq_or_ne q iN with rfl | hne
          · -- q is the new prime: these cells are exactly the newly marked ones
            refine Or.inr ⟨⟨(m : Int), ?_, by omega⟩, hm⟩
            rw [hmem ((m : Int))]
            rw [hiNe] at hqf
            refine ⟨hqf, by omega, ?_⟩
            rw [← hiNe]
            exact_mod_cast hqdvd
          · refine Or.inl ⟨q, hq, hqodd, hq3, ?_, hqdvd, hqf⟩
            have h3 : (q : Int) ≠ (iN : Int) := by exact_mod_cast hne
            push_cast at hqt ⊢
            omega
      · rw [ih3, List.range_succ, List.map_append, List.map_singleton,
          List.filter_append]
        have hfil : List.filter (fun q : Nat => decide q.Prime) [3 + 2 * t] =
            [3 + 2 * t] := by
          rw [List.filter_cons, if_pos (by simpa using hprime)]
          rfl
        rw [hfil, List.map_append, ← List.append_assoc, List.map_singleton,
          ← hiN, hiNe]
lemma pyRange_cands (e : Int) :
    pyRange 3 (e + 1) 2 =
      (List.range ((e - 1).fdiv 2).toNat).map fun k : Nat => (3 : Int) + 2 * (k : Int) := by
  unfold pyRange
  have harg : e + 1 - 3 + 2 - 1 = e - 1 := by ring
  rw [harg]

lemma cand_lt_iff (e : Int) (he : 0 ≤ e) (k : Nat) :
    k < ((e - 1).fdiv 2).toNat ↔ 3 + 2 * (k : Int) ≤ e := by
  rw [Int.fdiv_eq_ediv _ (by omega)]
  constructor
  · intro hk
    have h1 : (k : Int) + 1 ≤ (e - 1) / 2 := by omega
    rw [Int.le_ediv_iff_mul_le (by omega)] at h1
    omega
  · intro hk
    have h1 : (k : Int) + 1 ≤ (e - 1) / 2 := by
      rw [Int.le_ediv_iff_mul_le (by omega)]
      omega
    omega

lemma prefix_odd_eq_spec (e : Int) (he : 0 ≤ e) :
    (if 2 ≤ e then [2] else []) ++
      (((List.range ((e - 1).fdiv 2).toNat).map fun k : Nat => 3 + 2 * k).filter
        fun q : Nat => decide q.Prime).map (fun q : Nat => (q : Int)) =
    ((List.range (e.toNat + 1)).filter fun n : Nat => decide n.Prime).map
      fun n : Nat => (n : Int) := by
  have hsortOdd : ((((List.range ((e - 1).fdiv 2).toNat).map
      fun k : Nat => 3 + 2 * k).filter fun q : Nat => decide q.Prime).map
        (fun q : Nat => (q : Int))).Pairwise (· < ·) := by
    rw [List.pairwise_map]
    apply List.Pairwise.filter
    rw [List.pairwise_map]
    exact (List.pairwise_lt_range _).imp fun h => by exact_mod_cast (by omega : _)
  have hsortL : ((if 2 ≤ e then [2] else []) ++
      (((List.range ((e - 1).fdiv 2).toNat).map fun k : Nat => 3 + 2 * k).filter
        fun q : Nat => decide q.Prime).map (fun q : Nat => (q : Int))).Pairwise
          (· < ·) := by
    rw [List.pairwise_append]
    refine ⟨?_, hsortOdd, ?_⟩
    · split <;> simp
    · intro x hx y hy
      have hx2 : x = 2 := by
        rcases le_or_lt 2 e with hc | hc
        · rw [if_pos hc] at hx; simpa using hx
        · rw [if_neg (by omega)] at hx; simp at hx
      obtain ⟨q, hq, rfl⟩ := List.mem_map.mp hy
      obtain ⟨hqmem, _⟩ := List.mem_filter.mp hq
      obtain ⟨k, _, rfl⟩ := List.mem_map.mp hqmem
      rw [hx2]
      push_cast
      omega
  have hsortR : (((List.range (e.toNat + 1)).filter
      fun n : Nat => decide n.Prime).map (fun n : Nat => (n : Int))).Pairwise
        (· < ·) := by
    rw [List.pairwise_map]
    apply List.Pairwise.filter
    exact (List.pairwise_lt_range _).imp fun h => by exact_mod_cast h
  apply List.eq_of_perm_of_sorted ?_ hsortL hsortR
  rw [List.perm_ext_iff_of_nodup (hsortL.imp fun h => ne_of_lt h)
    (hsortR.imp fun h => ne_of_lt h)]
  intro a
  constructor
  · intro ha
    rcases List.mem_append.mp ha with h2 | hodd
    · have h2e : 2 ≤ e ∧ a = 2 := by
        rcases le_or_lt 2 e with hc | hc
        · rw [if_pos hc] at h2
          exact ⟨hc, by simpa using h2⟩
        · rw [if_neg (by omega)] at h2
          simp at h2
      refine List.mem_map.mpr ⟨2, List.mem_filter.mpr
        ⟨List.mem_range.mpr (by omega), by simpa using Nat.prime_two⟩, ?_⟩
      rw [h2e.2]
      norm_num
    · obtain ⟨q, hq, rfl⟩ := List.mem_map.mp hodd
      obtain ⟨hqmem, hqprime⟩ := List.mem_filter.mp hq
      obtain ⟨k, hk, rfl⟩ := List.mem_map.mp hqmem
      rw [List.mem_range] at hk
      have hke := (cand_lt_iff e he k).mp hk
      exact List.mem_map.mpr ⟨3 + 2 * k, List.mem_filter.mpr
        ⟨List.mem_range.mpr (by omega), hqprime⟩, rfl⟩
  · intro ha
    obtain ⟨n, hn, rfl⟩ := List.mem_map.mp ha
    obtain ⟨hnmem, hnp⟩ := List.mem_filter.mp hn
    rw [List.mem_range] at hnmem
    have hnp' : n.Prime := by simpa using hnp
    rcases hnp'.eq_two_or_odd' with rfl | hodd
    · apply List.mem_append.mpr
      left
      rw [if_pos (by omega)]
      norm_num
    · have h2 : n % 2 = 1 := Nat.odd_iff.mp hodd
      have h3 : 3 ≤ n := by have := hnp'.two_le; omega
      apply List.mem_append.mpr
      right
      refine List.mem_map.mpr ⟨n, List.mem_filter.mpr ⟨?_, hnp⟩, rfl⟩
      refine List.mem_map.mpr ⟨(n - 3) / 2, List.mem_range.mpr ?_, by omega⟩
      apply (cand_lt_iff e he ((n - 3) / 2)).mpr
      omega

lemma sieveFrom_eq_spec (f : Int → Int)
    (hf : ∀ q : Int, 3 ≤ q → q ∣ f q ∧ q ≤ f q ∧ f q ≤ q * q) (e : Int)
    (he : 0 ≤ e) :
    ((pyRange 3 (e + 1) 2).foldl (sieveStepFrom f e)
        (List.replicate (e + 1).toNat true, if 2 ≤ e then [2] else [])).2 =
      ((List.range (e.toNat + 1)).filter fun n : Nat => decide n.Prime).map
        fun n : Nat => (n : Int) := by
  rw [pyRange_cands]
  have hmain := (sieve_invariant f hf e ((e - 1).fdiv 2).toNat
    fun k hk => (cand_lt_iff e he k).mp hk).2.2
  rw [show (((List.range ((e - 1).fdiv 2).toNat).map
      fun k : Nat => (3 : Int) + 2 * (k : Int)).foldl (sieveStepFrom f e)
        (List.replicate (e + 1).toNat true, if 2 ≤ e then [2] else [])) =
      sieveAccum f e ((e - 1).fdiv 2).toNat from rfl]
  rw [hmain]
  exact prefix_odd_eq_spec e he

lemma getPrimesUpToOpt_def (e : Int) :
    GetPrimesUpToOpt e =
      ((pyRange 3 (e + 1) 2).foldl (sieveStepOpt e)
        (List.replicate (e + 1).toNat true, if 2 ≤ e then [2] else [])).2 := rfl

/-! ### Claim theorems: the sieve -/

/-- C3: for every `limit ≥ 0`, `GetPrimesUpTo(limit)` returns exactly the
prime numbers in `[2, limit]`, in ascending order, with no duplicates (and
hence the empty sequence for `limit < 2`). -/
theorem getPrimesUpTo_correct (limit : Int) (h : 0 ≤ limit) :
    GetPrimesUpTo limit =
      ((List.range (limit.toNat + 1)).filter fun n : Nat => decide n.Prime).map
        fun n : Nat => (n : Int) := by
  rw [getPrimesUpTo_def, sieveStep_eq_from]
  exact sieveFrom_eq_spec (fun i => i)
    (fun q hq => ⟨dvd_rfl, le_rfl, by nlinarith⟩) limit h

theorem getPrimesUpTo_correct_witness :
    (0 : Int) ≤ 10 ∧
      GetPrimesUpTo 10 =
        ((List.range ((10 : Int).toNat + 1)).filter fun n : Nat => decide n.Prime).map
          fun n : Nat => (n : Int) :=
  ⟨by decide, getPrimesUpTo_correct 10 (by decide)⟩

/-- C8: for every `limit`, the sieve that starts marking the multiples of a
prime `i` at `i` itself (as the code does) returns exactly the same list as
the optimized variant that starts marking at `i*i`. -/
theorem getPrimesUpToOpt_eq_getPrimesUpTo (rangeEnd : Int) :
    GetPrimesUpToOpt rangeEnd = GetPrimesUpTo rangeEnd := by
  rcases le_or_lt 0 rangeEnd with h | h
  · rw [getPrimesUpToOpt_def, sieveStepOpt_eq_from,
      sieveFrom_eq_spec (fun i => i * i)
        (fun q hq => ⟨dvd_mul_right q q, by show q ≤ q * q; nlinarith, le_rfl⟩)
        rangeEnd h,
      getPrimesUpTo_def, sieveStep_eq_from,
      sieveFrom_eq_spec (fun i => i)
        (fun q hq => ⟨dvd_rfl, le_rfl, by nlinarith⟩) rangeEnd h]
  · rw [getPrimesUpTo_def, getPrimesUpToOpt_def,
      pyRange_empty 3 (rangeEnd + 1) 2 (by omega) (by omega)]
    simp only [List.foldl_nil]

/-! ### Correctness of the trial-division primality test -/

lemma isPrimeAux_correct (n : Nat) :
    ∀ (fuel d : Nat), 3 ≤ d → d % 2 = 1 → n < (d + 2 * fuel) * (d + 2 * fuel) →
      (isPrimeAux n fuel d = true ↔
        ∀ m : Nat, d ≤ m → m % 2 = 1 → m * m ≤ n → ¬ m ∣ n) := by
  intro fuel
  induction fuel with
  | zero =>
    intro d hd3 hdodd hbound
    simp only [Nat.mul_zero, Nat.add_zero] at hbound
    simp only [isPrimeAux]
    constructor
    · intro _ m hdm hmodd hmsq hdvd
      have hdd : d * d ≤ m * m := Nat.mul_le_mul hdm hdm
      linarith
    · intro _
      trivial
  | succ fuel ih =>
    intro d hd3 hdodd hbound
    simp only [isPrimeAux]
    by_cases h1 : n < d * d
    · rw [if_pos h1]
      constructor
      · intro _ m hdm hmodd hmsq hdvd
        have hdd : d * d ≤ m * m := Nat.mul_le_mul hdm hdm
        linarith
      · intro _
        rfl
    · rw [if_neg h1]
      by_cases h2 : n % d = 0
      · rw [if_pos h2]
        constructor
        · intro hfalse
          cases hfalse
        · intro hall
          exact absurd (Nat.dvd_of_mod_eq_zero h2)
            (hall d le_rfl hdodd (by omega))
      · rw [if_neg h2]
        have hbound' : n < (d + 2 + 2 * fuel) * (d + 2 + 2 * fuel) := by
          have harith : d + 2 + 2 * fuel = d + 2 * (fuel + 1) := by ring
          rw [harith]
          exact hbound
        rw [ih (d + 2) (by omega) (by omega) hbound']
        constructor
        · intro hall m hdm hmodd hmsq hdvd
          rcases Nat.lt_or_ge m (d + 2) with hlt | hge
          · have hmd : m = d := by omega
            subst hmd
            exact h2 (Nat.mod_eq_zero_of_dvd hdvd)
          · exact hall m hge hmodd hmsq hdvd
        · intro hall m hdm hmodd hmsq hdvd
          exact hall m (by omega) hmodd hmsq hdvd

lemma isPrimeB_iff (n : Nat) : isPrimeB n = true ↔ n.Prime := by
  unfold isPrimeB
  by_cases h1 : n < 2
  · rw [if_pos h1]
    constructor
    · intro hfalse
      cases hfalse
    · intro hp
      exact absurd hp.two_le (by omega)
  · rw [if_neg h1]
    by_cases h2 : n % 2 = 0
    · rw [if_pos h2]
      rcases eq_or_ne n 2 with rfl | hne
      · simpa using Nat.prime_two
      · simp only [decide_eq_true_eq]
        constructor
        · intro h
          exact absurd h hne
        · intro hp
          rcases hp.eq_one_or_self_of_dvd 2 (Nat.dvd_of_mod_eq_zero h2) with h | h
          · omega
          · omega
    · rw [if_neg h2]
      rw [isPrimeAux_correct n n 3 (by omega) (by omega) (by nlinarith)]
      constructor
      · intro hall
        rw [Nat.prime_def_le_sqrt]
        refine ⟨by omega, ?_⟩
        intro m hm2 hmsqrt hdvd
        have hmsq : m * m ≤ n := Nat.le_sqrt.mp hmsqrt
        rcases Nat.even_or_odd m with heven | hodd
        · obtain ⟨k, rfl⟩ := heven
          have h2n : 2 ∣ n := Dvd.dvd.trans ⟨k, by ring⟩ hdvd
          omega
        · have hmodd : m % 2 = 1 := Nat.odd_iff.mp hodd
          exact hall m (by omega) hmodd hmsq hdvd
      · intro hp m h3m hmodd hmsq hdvd
        rcases hp.eq_one_or_self_of_dvd m hdvd with h | h
        · omega
        · subst h
          nlinarith

/-! ### `NumDivisors` equals the divisor count of `(N!)²` modulo 1000007 -/

lemma isPrimeB_eq_decide (n : Nat) : isPrimeB n = decide n.Prime := by
  rcases hb : isPrimeB n with _ | _
  · symm
    rw [decide_eq_false_iff_not]
    intro hp
    rw [(isPrimeB_iff n).mpr hp] at hb
    cases hb
  · symm
    rw [decide_eq_true_eq]
    exact (isPrimeB_iff n).mp hb

lemma getPrimeExponent_eq_factorization (n p : Nat) (hp : p.Prime) :
    GetPrimeExponent (n : Int) (p : Int) =
      (((Nat.factorial n).factorization p : Nat) : Int) := by
  rw [getPrimeExponent_natCast n p hp.two_le, legendre_eq_factorization n p hp]

lemma natAccum_cast (l : List Nat) :
    ∀ a : Nat,
      ((l.map fun e : Nat => (e : Int)).foldl accumStep (a : Int)) =
        ((l.foldl (fun acc e => acc * (2 * e + 1) % 1000007) a : Nat) : Int) := by
  induction l with
  | nil => intro a; rfl
  | cons e l ih =>
    intro a
    rw [List.map_cons, List.foldl_cons, List.foldl_cons]
    have hstep : accumStep (a : Int) (e : Int) =
        ((a * (2 * e + 1) % 1000007 : Nat) : Int) := by
      unfold accumStep MODULUS_TERM
      push_cast
      ring_nf
    rw [hstep, ih]

lemma foldl_mulmod_eq (l : List Nat) :
    ∀ a : Nat, l.foldl (fun acc e => acc * (2 * e + 1) % 1000007) (a % 1000007) =
      (l.foldl (fun acc e => acc * (2 * e + 1)) a) % 1000007 := by
  induction l with
  | nil => intro a; rfl
  | cons e l ih =>
    intro a
    rw [List.foldl_cons, List.foldl_cons]
    have h : a % 1000007 * (2 * e + 1) % 1000007 = a * (2 * e + 1) % 1000007 := by
      rw [Nat.mul_mod, Nat.mod_mod_of_dvd _ dvd_rfl, ← Nat.mul_mod]
    rw [h]
    exact ih (a * (2 * e + 1))

lemma foldl_mul_eq_prod (g : Nat → Nat) (l : List Nat) :
    ∀ a : Nat, l.foldl (fun acc p => acc * g p) a = a * (l.map g).prod := by
  induction l with
  | nil => intro a; simp
  | cons p l ih =>
    intro a
    rw [List.foldl_cons, ih, List.map_cons, List.prod_cons]
    ring

lemma foldl_accnat_eq_prod (l : List Nat) :
    l.foldl (fun acc e => acc * (2 * e + 1) % 1000007) 1 =
      (l.map fun e => 2 * e + 1).prod % 1000007 := by
  have h := foldl_mulmod_eq l 1
  rw [foldl_mul_eq_prod (fun e => 2 * e + 1) l 1, one_mul] at h
  norm_num at h
  exact h

lemma primeFactors_factorial (n : Nat) :
    (Nat.factorial n).primeFactors = (Finset.range (n + 1)).filter Nat.Prime := by
  ext p
  simp only [Nat.mem_primeFactors, Finset.mem_filter, Finset.mem_range]
  constructor
  · rintro ⟨hp, hdvd, -⟩
    refine ⟨?_, hp⟩
    have := (Nat.Prime.dvd_factorial hp).mp hdvd
    omega
  · rintro ⟨hlt, hp⟩
    exact ⟨hp, (Nat.Prime.dvd_factorial hp).mpr (by omega), Nat.factorial_ne_zero n⟩

lemma card_divisors_factorial_sq (n : Nat) :
    ((Nat.factorial n) ^ 2).divisors.card =
      ((Finset.range (n + 1)).filter Nat.Prime).prod
        (fun p => 2 * (Nat.factorial n).factorization p + 1) := by
  rw [Nat.card_divisors (pow_ne_zero 2 (Nat.factorial_ne_zero n))]
  rw [Nat.primeFactors_pow _ (by omega : (2 : Nat) ≠ 0)]
  rw [primeFactors_factorial]
  apply Finset.prod_congr rfl
  intro p _
  rw [Nat.factorization_pow]
  simp

lemma prod_filter_range_eq_list (n : Nat) (g : Nat → Nat) :
    ((Finset.range n).filter Nat.Prime).prod g =
      (((List.range n).filter fun q : Nat => decide q.Prime).map g).prod := by
  rw [Finset.prod_eq_multiset_prod, Finset.filter_val, Finset.range_val]
  rw [show (Multiset.range n) = ((List.range n : List Nat) : Multiset Nat) from rfl]
  simp [Multiset.filter_coe]

lemma numDivisors_natCast (n : Nat) :
    NumDivisors (n : Int) =
      (((((List.range (n + 1)).filter fun q : Nat => decide q.Prime).map
        (fun p => 2 * (Nat.factorial n).factorization p + 1)).prod % 1000007
          : Nat) : Int) := by
  rw [numDivisors_eq_foldl, getPrimesUpTo_def, sieveStep_eq_from,
    sieveFrom_eq_spec (fun i => i) (fun q hq => ⟨dvd_rfl, le_rfl, by nlinarith⟩)
      (n : Int) (by positivity), Int.toNat_natCast, List.map_map]
  have hmap : (((List.range (n + 1)).filter fun q : Nat => decide q.Prime).map
      ((fun p : Int => GetPrimeExponent (n : Int) p) ∘ fun q : Nat => (q : Int))) =
      ((((List.range (n + 1)).filter fun q : Nat => decide q.Prime).map
        fun p : Nat => (Nat.factorial n).factorization p).map
          fun e : Nat => (e : Int)) := by
    rw [List.map_map]
    apply List.map_congr_left
    intro p hp
    obtain ⟨-, hp2⟩ := List.mem_filter.mp hp
    exact getPrimeExponent_eq_factorization n p (by simpa using hp2)
  rw [hmap, show (1 : Int) = ((1 : Nat) : Int) from rfl, natAccum_cast,
    foldl_accnat_eq_prod, List.map_map]
  rfl

/-! ### Claim theorem: the counted quantity is the divisor count of `(N!)²` -/

/-- C1: for `1 ≤ N ≤ 10^6`, `NumDivisors N` (the spec's `CountSolutions`)
equals the number of positive divisors of `(N!)^2`, reduced modulo 1000007 —
for small `N` this is the brute-force divisor count of the literal integer
`(N!)^2`, reduced modulo 1000007. -/
theorem numDivisors_eq_card_divisors (N : Int) (h1 : 1 ≤ N) (h2 : N ≤ 10 ^ 6) :
    NumDivisors N =
      (((Nat.factorial N.toNat ^ 2).divisors.card % 1000007 : Nat) : Int) := by
  obtain ⟨n, rfl⟩ := Int.eq_ofNat_of_zero_le (by omega : (0 : Int) ≤ N)
  rw [Int.toNat_natCast, numDivisors_natCast, card_divisors_factorial_sq,
    prod_filter_range_eq_list]

theorem numDivisors_eq_card_divisors_witness :
    (1 : Int) ≤ 3 ∧ (3 : Int) ≤ 10 ^ 6 ∧
      (Nat.factorial (3 : Int).toNat ^ 2).divisors.card = 9 ∧
      NumDivisors 3 =
        (((Nat.factorial (3 : Int).toNat ^ 2).divisors.card % 1000007 : Nat) : Int) :=
  ⟨by decide, by decide, by decide,
    numDivisors_eq_card_divisors 3 (by decide) (by decide)⟩

lemma numDivisors_compute (n : Nat) :
    NumDivisors (n : Int) =
      (((List.range (n + 1)).filter fun q : Nat => isPrimeB q).map
        fun q : Nat => GetPrimeExponent (n : Int) (q : Int)).foldl accumStep 1 := by
  rw [numDivisors_eq_foldl, getPrimesUpTo_def, sieveStep_eq_from,
    sieveFrom_eq_spec (fun i => i) (fun q hq => ⟨dvd_rfl, le_rfl, by nlinarith⟩)
      (n : Int) (by positivity), Int.toNat_natCast, List.map_map]
  rw [← List.filter_congr (fun a _ => isPrimeB_eq_decide a)]
  rfl

/-! ### The fused bitmask computation equals `NumDivisors` -/

lemma natSeq_eq (x : Nat) (f : Nat → Nat) : natSeq x f = f x := by
  unfold natSeq
  rcases x with _ | k
  · rfl
  · rfl

lemma legLoop_zero (p r acc : Nat) : legLoop p 0 r acc = acc := rfl

lemma legLoop_succ (p fuel r acc : Nat) :
    legLoop p (fuel + 1) r acc =
      if r ≤ 1 then acc
      else natSeq (r / p) fun r' => natSeq (acc + r') fun a' => legLoop p fuel r' a' :=
  rfl

lemma legLoop_eq_sum (p : Nat) (hp : 2 ≤ p) :
    ∀ (fuel r acc : Nat), r ≤ fuel →
      legLoop p fuel r acc = acc + ∑ i ∈ Finset.Ico 1 (fuel + 1), r / p ^ i := by
  intro fuel
  induction fuel with
  | zero =>
    intro r acc hr
    rw [legLoop_zero, legendre_sum_zero p r 0 hp (by omega), Nat.add_zero]
  | succ f ih =>
    intro r acc hr
    rw [legLoop_succ]
    by_cases h : r ≤ 1
    · rw [if_pos h, legendre_sum_zero p r (f + 1) hp h, Nat.add_zero]
    · rw [if_neg h, natSeq_eq, natSeq_eq]
      have hfuel : r / p ≤ f := by
        have h2 : r / p ≤ r / 2 := Nat.div_le_div_left hp (by omega)
        omega
      rw [ih (r / p) (acc + r / p) hfuel]
      rw [show ∑ i ∈ Finset.Ico 1 (f + 1 + 1), r / p ^ i =
        r / p + ∑ i ∈ Finset.Ico 1 (f + 1), r / p / p ^ i from legendre_sum_step p r f]
      exact Nat.add_assoc acc (r / p) _

lemma testBit_add_two_pow (a m j : Nat) (ha : a < 2 ^ m) :
    (a + 2 ^ m).testBit j = (a.testBit j || decide (j = m)) := by
  rcases Nat.lt_trichotomy j m with hj | rfl | hj
  · rw [Nat.testBit_to_div_mod, Nat.testBit_to_div_mod]
    have hsplit : a + 2 ^ m = a + 2 ^ (m - j) * 2 ^ j := by
      rw [← pow_add]
      congr 2
      omega
    have hdecompose : (a + 2 ^ m) / 2 ^ j = a / 2 ^ j + 2 ^ (m - j) := by
      rw [hsplit]
      exact Nat.add_mul_div_right a _ (by positivity)
    rw [hdecompose]
    have heven : 2 ^ (m - j) % 2 = 0 := by
      rcases Nat.exists_eq_succ_of_ne_zero (show m - j ≠ 0 by omega) with ⟨k, hk⟩
      rw [hk, pow_succ]
      omega
    have hmod : (a / 2 ^ j + 2 ^ (m - j)) % 2 = a / 2 ^ j % 2 := by omega
    rw [hmod, show decide (j = m) = false from by
      rw [decide_eq_false_iff_not]; omega, Bool.or_false]
  · rw [Nat.testBit_to_div_mod, Nat.testBit_to_div_mod]
    have h1 : (a + 2 ^ j) / 2 ^ j = 1 := by
      rw [show a + 2 ^ j = a + 1 * 2 ^ j from by ring,
        Nat.add_mul_div_right a 1 (by positivity), Nat.div_eq_of_lt ha]
    have h2 : a / 2 ^ j = 0 := Nat.div_eq_of_lt ha
    rw [h1, h2]
    simp
  · have h2j : 2 ^ (m + 1) ≤ 2 ^ j := Nat.pow_le_pow_right (by omega) (by omega)
    have h2m : (2 : Nat) ^ (m + 1) = 2 * 2 ^ m := by rw [pow_succ]; ring
    rw [Nat.testBit_to_div_mod, Nat.testBit_to_div_mod,
      Nat.div_eq_of_lt (by omega), Nat.div_eq_of_lt (by omega),
      show decide (j = m) = false from by rw [decide_eq_false_iff_not]; omega]
    rfl

lemma repunit_mul (i : Nat) (hi : 1 ≤ i) (c : Nat) :
    (2 ^ i - 1) * ∑ k ∈ Finset.range c, 2 ^ (i * k) = 2 ^ (i * c) - 1 := by
  induction c with
  | zero => simp
  | succ c ih =>
    rw [Finset.sum_range_succ, Nat.mul_add, ih]
    have hx : 1 ≤ (2 : Nat) ^ (i * c) := Nat.one_le_two_pow
    have hy : 1 ≤ (2 : Nat) ^ i := Nat.one_le_two_pow
    have hpow : (2 : Nat) ^ (i * (c + 1)) = 2 ^ (i * c) * 2 ^ i := by
      rw [← pow_add]
      have harg : i * c + i = i * (c + 1) := by ring
      rw [harg]
    have hmul : (2 ^ i - 1) * 2 ^ (i * c) = 2 ^ i * 2 ^ (i * c) - 2 ^ (i * c) := by
      rw [Nat.sub_mul, Nat.one_mul]
    have hcomm : (2 : Nat) ^ (i * c) * 2 ^ i = 2 ^ i * 2 ^ (i * c) := Nat.mul_comm _ _
    have hle : (2 : Nat) ^ (i * c) ≤ 2 ^ i * 2 ^ (i * c) :=
      Nat.le_mul_of_pos_left _ (by omega)
    rw [hpow, hmul, hcomm]
    omega

lemma repunit_div (i : Nat) (hi : 1 ≤ i) (c : Nat) :
    (2 ^ (i * c) - 1) / (2 ^ i - 1) = ∑ k ∈ Finset.range c, 2 ^ (i * k) := by
  rw [← repunit_mul i hi c]
  have h2 : (2 : Nat) ≤ 2 ^ i := by
    have := Nat.pow_le_pow_right (show 1 ≤ 2 by omega) hi
    rwa [pow_one] at this
  exact Nat.mul_div_cancel_left _ (by omega)

lemma repunit_sum_lt (i : Nat) (hi : 1 ≤ i) (c : Nat) :
    ∑ k ∈ Finset.range c, 2 ^ (i * k) < 2 ^ (i * c) := by
  have h := repunit_mul i hi c
  have hx : 1 ≤ (2 : Nat) ^ (i * c) := Nat.one_le_two_pow
  have h1 : ∑ k ∈ Finset.range c, 2 ^ (i * k) ≤
      (2 ^ i - 1) * ∑ k ∈ Finset.range c, 2 ^ (i * k) := by
    apply Nat.le_mul_of_pos_left
    have h2 : (2 : Nat) ≤ 2 ^ i := by
      have := Nat.pow_le_pow_right (show 1 ≤ 2 by omega) hi
      rwa [pow_one] at this
    omega
  omega

lemma repunit_testBit (i : Nat) (hi : 1 ≤ i) :
    ∀ (c j : Nat), ((∑ k ∈ Finset.range c, 2 ^ (i * k)).testBit j = true ↔
      i ∣ j ∧ j < i * c) := by
  intro c
  induction c with
  | zero =>
    intro j
    simp [Nat.zero_testBit]
  | succ c ih =>
    intro j
    rw [Finset.sum_range_succ, testBit_add_two_pow _ _ _ (repunit_sum_lt i hi c),
      Bool.or_eq_true, decide_eq_true_eq, ih j]
    have hstep : i * (c + 1) = i * c + i := by ring
    constructor
    · rintro (⟨hdvd, hlt⟩ | rfl)
      · exact ⟨hdvd, by omega⟩
      · exact ⟨Dvd.intro c rfl, by omega⟩
    · rintro ⟨⟨q, rfl⟩, hlt⟩
      have hq : q < c + 1 := by
        by_contra hq
        push_neg at hq
        have := Nat.mul_le_mul_left i hq
        omega
      rcases Nat.lt_or_ge q c with h | h
      · left
        refine ⟨Dvd.intro q rfl, ?_⟩
        have := Nat.mul_le_mul_left i (show q + 1 ≤ c from h)
        have hq1 : i * (q + 1) = i * q + i := by ring
        omega
      · right
        have : q = c := by omega
        rw [this]

lemma multiplesMask_testBit (i n j : Nat) (hi : 1 ≤ i) :
    ((multiplesMask i n).testBit j = true ↔ i ∣ j ∧ i ≤ j ∧ j ≤ n) := by
  unfold multiplesMask
  rw [repunit_div i hi (n / i), Nat.testBit_shiftLeft, Bool.and_eq_true,
    decide_eq_true_eq, repunit_testBit i hi]
  have hdivle : i * (n / i) ≤ n := by
    have h1 := Nat.div_mul_le_self n i
    have h2 : n / i * i = i * (n / i) := Nat.mul_comm _ _
    omega
  constructor
  · rintro ⟨hij, ⟨q, hq⟩, hlt⟩
    have hj : j = i * q + i := by omega
    refine ⟨⟨q + 1, by rw [hj]; ring⟩, by omega, ?_⟩
    have hqlt : q < n / i := by
      by_contra hc
      push_neg at hc
      have := Nat.mul_le_mul_left i hc
      omega
    have := Nat.mul_le_mul_left i (show q + 1 ≤ n / i from hqlt)
    have hq1 : i * (q + 1) = i * q + i := by ring
    omega
  · rintro ⟨⟨q, rfl⟩, hij, hn⟩
    have hq1 : 1 ≤ q := by
      rcases Nat.eq_zero_or_pos q with rfl | h
      · rw [Nat.mul_zero] at hij
        omega
      · exact h
    have hsub : i * q - i = i * (q - 1) := by
      rw [Nat.mul_sub, Nat.mul_one]
    have hgi : i ≤ i * q := Nat.le_mul_of_pos_right i hq1
    refine ⟨by omega, ⟨q - 1, by omega⟩, ?_⟩
    have hqle : q ≤ n / i := by
      rw [Nat.le_div_iff_mul_le (by omega)]
      have hcm : q * i = i * q := Nat.mul_comm q i
      omega
    have hmono := Nat.mul_le_mul_left i hqle
    omega

lemma maskLoop_zero (n i mask acc : Nat) : maskLoop n 0 i mask acc = acc := rfl

lemma maskLoop_succ_raw (n r i mask acc : Nat) :
    maskLoop n (r + 1) i mask acc =
      if mask.testBit i then natSeq (i + 2) fun i' => maskLoop n r i' mask acc
      else
        natSeq (mask ||| multiplesMask i n) fun mask' =>
        natSeq (acc * (2 * legLoop i n n 0 + 1) % 1000007) fun acc' =>
        natSeq (i + 2) fun i' => maskLoop n r i' mask' acc' := rfl

lemma maskLoop_succ (n r i mask acc : Nat) :
    maskLoop n (r + 1) i mask acc =
      if mask.testBit i then maskLoop n r (i + 2) mask acc
      else
        maskLoop n r (i + 2) (mask ||| multiplesMask i n)
          (acc * (2 * legLoop i n n 0 + 1) % 1000007) := by
  rw [maskLoop_succ_raw]
  cases h : mask.testBit i <;> simp [h, natSeq_eq]

lemma sieveAccum_length (f : Int → Int) (e : Int) :
    ∀ t, (sieveAccum f e t).1.length = (e + 1).toNat := by
  intro t
  induction t with
  | zero => exact List.length_replicate _ _
  | succ t ih =>
    rw [sieveAccum_succ]
    unfold sieveStepFrom
    split
    · exact (foldl_set_length _ _).trans ih
    · exact ih

lemma getD_replicate_true (L j : Nat) (hj : j < L) :
    (List.replicate L true).getD j false = true := by
  rw [List.getD_eq_getElem?_getD, List.getElem?_replicate, if_pos hj]
  rfl

lemma marked_getD_iff (n iN : Nat) (h3 : 3 ≤ iN)
    (bl : List Bool) (hlen : bl.length = n + 1) (j : Nat) :
    (((pyRange ((iN : Nat) : Int) ((n : Int) + 1) ((iN : Nat) : Int)).foldl
        (fun arr m => arr.set m.toNat false) bl).getD j false = false ↔
      (bl.getD j false = false ∨ (iN ∣ j ∧ iN ≤ j ∧ j ≤ n))) := by
  rw [foldl_set_getD]
  have hpos : (0 : Int) < ((iN : Nat) : Int) := by exact_mod_cast (by omega : 0 < iN)
  have hmem : (∃ x ∈ pyRange (iN : Int) ((n : Int) + 1) (iN : Int), x.toNat = j) ↔
      (iN ∣ j ∧ iN ≤ j ∧ j ≤ n) := by
    constructor
    · rintro ⟨x, hx, hxj⟩
      rw [pyRange_mem_iff_of_dvd _ _ _ _ hpos dvd_rfl] at hx
      have hx0 : (0 : Int) ≤ x := le_trans (le_of_lt hpos) hx.1
      have hxj' : x = (j : Int) := by omega
      subst hxj'
      refine ⟨?_, ?_, ?_⟩
      · exact_mod_cast hx.2.2
      · exact_mod_cast hx.1
      · have := hx.2.1
        omega
    · rintro ⟨hdvd, hij, hjn⟩
      refine ⟨(j : Int), ?_, by omega⟩
      rw [pyRange_mem_iff_of_dvd _ _ _ _ hpos dvd_rfl]
      exact ⟨by exact_mod_cast hij, by omega, by exact_mod_cast hdvd⟩
  constructor
  · rintro (h | ⟨hx, hjlen⟩)
    · exact Or.inl h
    · exact Or.inr (hmem.mp hx)
  · rintro (h | h)
    · exact Or.inl h
    · exact Or.inr ⟨hmem.mpr h, by rw [hlen]; omega⟩

lemma maskLoop_spec (n : Nat) :
    ∀ (r t mask acc : Nat), r + t = (n - 1) / 2 →
      (∀ j : Nat, j < n + 1 →
        (sieveAccum (fun i => i) (n : Int) t).1.getD j false = !mask.testBit j) →
      ((acc : Int) =
        ((sieveAccum (fun i => i) (n : Int) t).2.map
          fun p => GetPrimeExponent (n : Int) p).foldl accumStep 1) →
      ((maskLoop n r (3 + 2 * t) mask acc : Nat) : Int) =
        ((sieveAccum (fun i => i) (n : Int) ((n - 1) / 2)).2.map
          fun p => GetPrimeExponent (n : Int) p).foldl accumStep 1 := by
  intro r
  induction r with
  | zero =>
    intro t mask acc hrt hmask hacc
    have ht : t = (n - 1) / 2 := by omega
    subst ht
    rw [maskLoop_zero]
    exact hacc
  | succ r ih =>
    intro t mask acc hrt hmask hacc
    have hiNn : 3 + 2 * t ≤ n := by omega
    have hlen := sieveAccum_length (fun i => i) (n : Int) t
    have hlen' : (sieveAccum (fun i => i) (n : Int) t).1.length = n + 1 := by
      rw [hlen]
      omega
    have hcand := hmask (3 + 2 * t) (by omega)
    have hsucc := sieveAccum_succ (fun i => i) (n : Int) t
    have hito : ((3 : Int) + 2 * (t : Int)).toNat = 3 + 2 * t := by omega
    have hcast : ((3 + 2 * t : Nat) : Int) = 3 + 2 * (t : Int) := by push_cast; ring
    rw [maskLoop_succ]
    cases hbit : mask.testBit (3 + 2 * t) with
    | true =>
      rw [if_pos rfl]
      rw [hbit] at hcand
      simp only [Bool.not_true] at hcand
      have hstep : sieveAccum (fun i => i) (n : Int) (t + 1) =
          sieveAccum (fun i => i) (n : Int) t := by
        rw [hsucc]
        unfold sieveStepFrom
        rw [hito, hcand]
        simp
      have hrel : ∀ j : Nat, j < n + 1 →
          (sieveAccum (fun i => i) (n : Int) (t + 1)).1.getD j false =
            !mask.testBit j := by
        intro j hj
        rw [hstep]
        exact hmask j hj
      have hacc' : ((acc : Nat) : Int) =
          ((sieveAccum (fun i => i) (n : Int) (t + 1)).2.map
            fun p => GetPrimeExponent (n : Int) p).foldl accumStep 1 := by
        rw [hstep]
        exact hacc
      exact ih (t + 1) mask acc (by omega) hrel hacc'
    | false =>
      rw [if_neg (by simp)]
      rw [hbit] at hcand
      simp only [Bool.not_false] at hcand
      have hstep1 : (sieveAccum (fun i => i) (n : Int) (t + 1)).2 =
          (sieveAccum (fun i => i) (n : Int) t).2 ++ [(3 : Int) + 2 * (t : Int)] := by
        rw [hsucc]
        unfold sieveStepFrom
        rw [hito, hcand, if_pos rfl]
      have hstep2 : (sieveAccum (fun i => i) (n : Int) (t + 1)).1 =
          (pyRange ((3 + 2 * t : Nat) : Int) ((n : Int) + 1)
              ((3 + 2 * t : Nat) : Int)).foldl
            (fun arr m => arr.set m.toNat false)
            (sieveAccum (fun i => i) (n : Int) t).1 := by
        rw [hsucc]
        unfold sieveStepFrom
        rw [hito, hcand, if_pos rfl, hcast]
      have hrel : ∀ j : Nat, j < n + 1 →
          (sieveAccum (fun i => i) (n : Int) (t + 1)).1.getD j false =
            !(mask ||| multiplesMask (3 + 2 * t) n).testBit j := by
        intro j hj
        rw [hstep2, Nat.testBit_lor]
        have hiff := marked_getD_iff n (3 + 2 * t) (by omega)
          (sieveAccum (fun i => i) (n : Int) t).1 hlen' j
        have hmmiff := multiplesMask_testBit (3 + 2 * t) n j (by omega)
        have hold := hmask j hj
        cases hmj : mask.testBit j with
        | true =>
          rw [hmj] at hold
          simp only [Bool.not_true] at hold
          simp only [Bool.true_or, Bool.not_true]
          exact hiff.mpr (Or.inl hold)
        | false =>
          rw [hmj] at hold
          simp only [Bool.not_false] at hold
          simp only [Bool.false_or]
          cases hmm : (multiplesMask (3 + 2 * t) n).testBit j with
          | true =>
            simp only [Bool.not_true]
            exact hiff.mpr (Or.inr (hmmiff.mp hmm))
          | false =>
            simp only [Bool.not_false]
            cases hmk : ((pyRange ((3 + 2 * t : Nat) : Int) ((n : Int) + 1)
                ((3 + 2 * t : Nat) : Int)).foldl
                  (fun arr m => arr.set m.toNat false)
                  (sieveAccum (fun i => i) (n : Int) t).1).getD j false with
            | false =>
              exfalso
              rcases hiff.mp hmk with h | h
              · rw [hold] at h
                cases h
              · have := hmmiff.mpr h
                rw [hmm] at this
                cases this
            | true => rfl
      have hacc' : ((acc * (2 * legLoop (3 + 2 * t) n n 0 + 1) % 1000007 : Nat) : Int) =
          ((sieveAccum (fun i => i) (n : Int) (t + 1)).2.map
            fun p => GetPrimeExponent (n : Int) p).foldl accumStep 1 := by
        rw [hstep1, List.map_append, List.foldl_append, ← hacc]
        simp only [List.map_cons, List.map_nil, List.foldl_cons, List.foldl_nil]
        rw [show ((3 : Int) + 2 * (t : Int)) = ((3 + 2 * t : Nat) : Int) from hcast.symm]
        rw [getPrimeExponent_natCast n (3 + 2 * t) (by omega)]
        rw [legLoop_eq_sum (3 + 2 * t) (by omega) n n 0 le_rfl]
        simp only [Nat.zero_add]
        unfold accumStep MODULUS_TERM
        push_cast
        ring_nf
      exact ih (t + 1) _ _ (by omega) hrel hacc'

lemma fdiv_cnt_natCast (n : Nat) : (((n : Int) - 1).fdiv 2).toNat = (n - 1) / 2 := by
  rw [Int.fdiv_eq_ediv _ (by omega)]
  omega

lemma numDivisorsFast_eq (n : Nat) :
    ((numDivisorsFast n : Nat) : Int) = NumDivisors (n : Int) := by
  rw [numDivisors_eq_foldl, getPrimesUpTo_def, sieveStep_eq_from, pyRange_cands]
  rw [show (((List.range ((((n : Int)) - 1).fdiv 2).toNat).map
      fun k : Nat => (3 : Int) + 2 * (k : Int)).foldl
        (sieveStepFrom (fun i => i) (n : Int))
        (List.replicate (((n : Int)) + 1).toNat true,
          if 2 ≤ ((n : Int)) then [2] else [])) =
      sieveAccum (fun i => i) (n : Int) ((((n : Int)) - 1).fdiv 2).toNat from rfl]
  rw [fdiv_cnt_natCast]
  unfold numDivisorsFast
  have hbase1 : ∀ j : Nat, j < n + 1 →
      (sieveAccum (fun i => i) (n : Int) 0).1.getD j false = !Nat.testBit 0 j := by
    intro j hj
    rw [Nat.zero_testBit, Bool.not_false]
    show (List.replicate (((n : Int)) + 1).toNat true).getD j false = true
    apply getD_replicate_true
    omega
  have hbase2 : (((if 2 ≤ n then 1 * (2 * legLoop 2 n n 0 + 1) % 1000007 else 1) : Nat) : Int) =
      ((sieveAccum (fun i => i) (n : Int) 0).2.map
        fun p => GetPrimeExponent (n : Int) p).foldl accumStep 1 := by
    have h02 : (sieveAccum (fun i => i) (n : Int) 0).2 =
        if 2 ≤ (n : Int) then [2] else [] := rfl
    rw [h02]
    rcases le_or_lt 2 n with h2n | h2n
    · rw [if_pos h2n, if_pos (by exact_mod_cast h2n)]
      simp only [List.map_cons, List.map_nil, List.foldl_cons, List.foldl_nil]
      rw [show (2 : Int) = ((2 : Nat) : Int) from rfl]
      rw [getPrimeExponent_natCast n 2 le_rfl]
      rw [legLoop_eq_sum 2 le_rfl n n 0 le_rfl]
      simp only [Nat.zero_add]
      unfold accumStep MODULUS_TERM
      push_cast
      ring_nf
    · rw [if_neg (by omega), if_neg (show ¬ (2 : Int) ≤ (n : Int) by omega)]
      rfl
  exact maskLoop_spec n ((n - 1) / 2) 0 0 _ (by omega) hbase1 hbase2

/-! ### Claim theorem: the reference scenarios -/

set_option maxRecDepth 10000000 in
set_option maxHeartbeats 4000000 in
/-- C4: the two reference scenarios of the problem statement:
`CountSolutions(32327) = 656502` and `CountSolutions(40921) = 686720`. -/
theorem numDivisors_reference_values :
    NumDivisors 32327 = 656502 ∧ NumDivisors 40921 = 686720 := by
  have h1 : numDivisorsFast 32327 = 656502 := by decide!
  have h2 : numDivisorsFast 40921 = 686720 := by decide!
  constructor
  · rw [show (32327 : Int) = ((32327 : Nat) : Int) from rfl, ← numDivisorsFast_eq, h1]
    norm_cast
  · rw [show (40921 : Int) = ((40921 : Nat) : Int) from rfl, ← numDivisorsFast_eq, h2]
    norm_cast
